import Mathlib

/-!
# Verification of the snitch-cli command core (cmd.go, console.go)

A shallow embedding of the step-based action dispatcher (`cmd.go: run`),
its handlers (`actionConnect`, `actionSelect`, `actionFilter`,
`actionSearch`, `actionPeek`/`peek`), the peek consumer loop, and the
text-highlighting rescan that rewrites the scrollback when search terms
change.  Go strings are modelled as `List Char`; the tview console and
the snitch server are modelled as script parameters supplying the answers
the real collaborators would deliver over channels.
-/

/-- Go strings are modelled as lists of characters. -/
abbrev Str := List Char

/-! ## Primitive string operations (models of Go's `strings` package) -/

/-- Model of Go `strings.HasPrefix` (used internally by `strings.Contains`
and `strings.Replace`): `isPre pat s` is true iff `pat` is a prefix of `s`. -/
def isPre : Str → Str → Bool
  | [], _ => true
  | _ :: _, [] => false
  | p :: ps, c :: cs => p = c && isPre ps cs

/-- Model of Go `strings.Contains s pat`: true iff `pat` occurs as a
contiguous substring of `s` (always true for the empty pattern). -/
def hasSub : Str → Str → Bool
  | s, pat =>
    isPre pat s ||
      (match s with
       | [] => false
       | _ :: t => hasSub t pat)

/-- Helper for the empty-pattern case of Go `strings.Replace`: Go inserts
the replacement before every rune and at the end. -/
def interleaveRep (rep : Str) : Str → Str
  | [] => []
  | c :: t => c :: (rep ++ interleaveRep rep t)

/-- Worker for `replaceAll`: scans the string left to right; `skip > 0`
means the scanner is inside an already-replaced occurrence and must drop
`skip` further characters before resuming the search. -/
def replaceAllGo (pat rep : Str) : Nat → Str → Str
  | _, [] => []
  | Nat.succ k, _ :: t => replaceAllGo pat rep k t
  | 0, c :: t =>
    if isPre pat (c :: t) then
      rep ++ replaceAllGo pat rep (pat.length - 1) t
    else
      c :: replaceAllGo pat rep 0 t

/-- Model of Go `strings.Replace s pat rep -1`: replace every
non-overlapping occurrence of `pat` in `s` by `rep`, scanning left to
right; with an empty `pat` Go inserts `rep` at every rune boundary. -/
def replaceAll (pat rep s : Str) : Str :=
  if pat.isEmpty then rep ++ interleaveRep rep s
  else replaceAllGo pat rep 0 s

/-! ### Basic lemmas about the primitives -/

theorem isPre_prefix_iff (pat s : Str) : isPre pat s = true ↔ pat <+: s := by
  induction pat generalizing s with
  | nil => simp [isPre]
  | cons p ps ih =>
    cases s with
    | nil => simp [isPre]
    | cons c cs =>
      simp only [isPre, Bool.and_eq_true, decide_eq_true_eq, ih,
        List.cons_prefix_cons]

theorem hasSub_infix_iff (s pat : Str) : hasSub s pat = true ↔ pat <:+: s := by
  induction s with
  | nil =>
    simp [hasSub, isPre_prefix_iff]
  | cons c cs ih =>
    simp only [hasSub, Bool.or_eq_true, isPre_prefix_iff, ih,
      List.infix_cons_iff]

theorem hasSub_nil_pat (s : Str) : hasSub s [] = true := by
  cases s <;> simp [hasSub, isPre]

/-- If the pattern occurs in the tail extension, it occurs in the whole. -/
theorem hasSub_of_hasSub_suffix (x y pat : Str) (h : hasSub y pat = true) :
    hasSub (x ++ y) pat = true := by
  rw [hasSub_infix_iff] at h ⊢
  exact h.trans ⟨x, [], by simp⟩

/-- Contrapositive form: no occurrence in `x ++ y` means none in `y`. -/
theorem hasSub_suffix_false (x y pat : Str) (h : hasSub (x ++ y) pat = false) :
    hasSub y pat = false := by
  by_contra hne
  rw [← ne_eq, Bool.ne_false_iff] at hne
  rw [hasSub_of_hasSub_suffix x y pat hne] at h
  cases h

theorem hasSub_cons_false (a : Char) (t pat : Str)
    (h : hasSub (a :: t) pat = false) : hasSub t pat = false :=
  hasSub_suffix_false [a] t pat h

/-- Characters of the output of `replaceAllGo` come from the input or the
replacement. -/
theorem mem_replaceAllGo (pat rep : Str) (k : Nat) (s : Str) (x : Char)
    (h : x ∈ replaceAllGo pat rep k s) : x ∈ s ∨ x ∈ rep := by
  induction s generalizing k with
  | nil => simp [replaceAllGo] at h
  | cons c t ih =>
    cases k with
    | succ k' =>
      rcases ih k' h with h' | h'
      · exact Or.inl (List.mem_cons_of_mem _ h')
      · exact Or.inr h'
    | zero =>
      rw [replaceAllGo] at h
      split at h
      · rcases List.mem_append.mp h with h' | h'
        · exact Or.inr h'
        · rcases ih _ h' with h'' | h''
          · exact Or.inl (List.mem_cons_of_mem _ h'')
          · exact Or.inr h''
      · rcases List.mem_cons.mp h with h' | h'
        · exact Or.inl (h' ▸ List.mem_cons_self _ _)
        · rcases ih _ h' with h'' | h''
          · exact Or.inl (List.mem_cons_of_mem _ h'')
          · exact Or.inr h''

theorem mem_interleaveRep (rep s : Str) (x : Char)
    (h : x ∈ interleaveRep rep s) : x ∈ s ∨ x ∈ rep := by
  induction s with
  | nil => simp [interleaveRep] at h
  | cons c t ih =>
    rw [interleaveRep] at h
    rcases List.mem_cons.mp h with h' | h'
    · exact Or.inl (h' ▸ List.mem_cons_self _ _)
    · rcases List.mem_append.mp h' with h'' | h''
      · exact Or.inr h''
      · rcases ih h'' with h3 | h3
        · exact Or.inl (List.mem_cons_of_mem _ h3)
        · exact Or.inr h3

theorem mem_replaceAll (pat rep s : Str) (x : Char)
    (h : x ∈ replaceAll pat rep s) : x ∈ s ∨ x ∈ rep := by
  rw [replaceAll] at h
  split at h
  · rcases List.mem_append.mp h with h' | h'
    · exact Or.inr h'
    · exact mem_interleaveRep rep s x h'
  · exact mem_replaceAllGo pat rep 0 s x h

/-! ### Unfolding lemmas for `replaceAll` with a non-empty pattern -/

theorem replaceAllGo_skip (pat rep : Str) (k : Nat) (s : Str) :
    replaceAllGo pat rep k s = replaceAllGo pat rep 0 (s.drop k) := by
  induction s generalizing k with
  | nil => cases k <;> rfl
  | cons c t ih =>
    cases k with
    | zero => rfl
    | succ k' =>
      rw [List.drop_succ_cons, ← ih k']
      rfl

theorem replaceAll_eq_go (pat rep s : Str) (hp : pat ≠ []) :
    replaceAll pat rep s = replaceAllGo pat rep 0 s := by
  cases pat with
  | nil => exact absurd rfl hp
  | cons p ps => rfl

theorem replaceAll_nil (pat rep : Str) (hp : pat ≠ []) :
    replaceAll pat rep [] = [] := by
  rw [replaceAll_eq_go pat rep [] hp]
  rfl

theorem replaceAll_pos (pat rep s : Str) (hp : pat ≠ [])
    (h : isPre pat s = true) :
    replaceAll pat rep s = rep ++ replaceAll pat rep (s.drop pat.length) := by
  obtain ⟨p, ps, rfl⟩ : ∃ p ps, pat = p :: ps := by
    cases pat with
    | nil => exact absurd rfl hp
    | cons p ps => exact ⟨p, ps, rfl⟩
  cases s with
  | nil => simp [isPre] at h
  | cons c t =>
    rw [replaceAll_eq_go _ _ _ hp, replaceAll_eq_go _ _ _ hp]
    rw [replaceAllGo, if_pos h, replaceAllGo_skip]
    simp

theorem replaceAll_neg (pat rep : Str) (c : Char) (t : Str) (hp : pat ≠ [])
    (h : isPre pat (c :: t) = false) :
    replaceAll pat rep (c :: t) = c :: replaceAll pat rep t := by
  rw [replaceAll_eq_go _ _ _ hp, replaceAll_eq_go _ _ _ hp]
  rw [replaceAllGo, if_neg (by simp [h])]

/-- If the pattern occurs in `s`, the replacement string occurs verbatim in
the output of `replaceAll`. -/
theorem hasSub_rep_replaceAll (pat rep s : Str) (hp : pat ≠ [])
    (h : hasSub s pat = true) :
    hasSub (replaceAll pat rep s) rep = true := by
  induction s with
  | nil =>
    rw [hasSub_infix_iff] at h
    rw [List.infix_nil] at h
    exact absurd h hp
  | cons c t ih =>
    by_cases hpre : isPre pat (c :: t) = true
    · rw [replaceAll_pos pat rep _ hp hpre]
      exact hasSub_of_hasSub_suffix [] _ rep
        (by
          rw [hasSub_infix_iff]
          exact ⟨[], _, rfl⟩)
    · rw [Bool.not_eq_true] at hpre
      rw [replaceAll_neg pat rep c t hp hpre]
      have ht : hasSub t pat = true := by
        rw [hasSub] at h
        rcases Bool.or_eq_true_iff.mp h with h' | h'
        · rw [hpre] at h'
          cases h'
        · exact h'
      exact hasSub_of_hasSub_suffix [c] _ rep (ih ht)

/-! ## Splitting (models of Go `strings.Split` / `strings.SplitN`) -/

/-- Prepend a character to the first piece of a split result. -/
def consHead (c : Char) : List Str → List Str
  | [] => [[c]]
  | t :: ts => (c :: t) :: ts

/-- Model of Go `strings.Split s sep` for a single-character separator:
splits `s` around every occurrence of `sep`; `splitOnChar sep "" = [""]`
and adjacent separators yield empty pieces, exactly as in Go. -/
def splitOnChar (sep : Char) : Str → List Str
  | [] => [[]]
  | c :: rest =>
    if c = sep then [] :: splitOnChar sep rest
    else consHead c (splitOnChar sep rest)

/-- Inverse of splitting: rejoin the pieces with the separator, modelling
Go `strings.Join pieces sep`. -/
def joinSep (sep : Char) : List Str → Str
  | [] => []
  | [l] => l
  | l :: l' :: ls => l ++ sep :: joinSep sep (l' :: ls)

/-- Model of Go `strings.SplitN line " " 3` (cmd.go:476): at most three
pieces; the third piece is the unsplit remainder after the second space. -/
def splitN3 (line : Str) : List Str :=
  match splitOnChar ' ' line with
  | [] => []
  | [a] => [a]
  | [a, b] => [a, b]
  | a :: b :: rest => [a, b, joinSep ' ' rest]

theorem splitOnChar_ne_nil (sep : Char) (s : Str) : splitOnChar sep s ≠ [] := by
  cases s with
  | nil => simp [splitOnChar]
  | cons c rest =>
    rw [splitOnChar]
    split
    · simp
    · cases h : splitOnChar sep rest <;> simp [consHead]

theorem not_sep_mem_splitOnChar (sep : Char) (s : Str) (l : Str)
    (h : l ∈ splitOnChar sep s) : sep ∉ l := by
  induction s generalizing l with
  | nil =>
    rw [splitOnChar] at h
    rcases List.mem_singleton.mp h with rfl
    simp
  | cons c rest ih =>
    rw [splitOnChar] at h
    split at h
    · rcases List.mem_cons.mp h with rfl | h'
      · simp
      · exact ih l h'
    · rename_i hc
      cases hs : splitOnChar sep rest with
      | nil => exact absurd hs (splitOnChar_ne_nil sep rest)
      | cons t ts =>
        rw [hs] at h
        rcases List.mem_cons.mp h with rfl | h'
        · intro hmem
          rcases List.mem_cons.mp hmem with rfl | hmem'
          · exact hc rfl
          · exact ih t (hs ▸ List.mem_cons_self t ts) hmem'
        · exact ih l (hs ▸ List.mem_cons_of_mem t h')

theorem mem_of_mem_splitOnChar (sep : Char) (s : Str) (l : Str) (x : Char)
    (hl : l ∈ splitOnChar sep s) (hx : x ∈ l) : x ∈ s := by
  induction s generalizing l with
  | nil =>
    rw [splitOnChar] at hl
    rcases List.mem_singleton.mp hl with rfl
    simp at hx
  | cons c rest ih =>
    rw [splitOnChar] at hl
    split at hl
    · rcases List.mem_cons.mp hl with rfl | h'
      · simp at hx
      · exact List.mem_cons_of_mem c (ih l h' hx)
    · cases hs : splitOnChar sep rest with
      | nil => exact absurd hs (splitOnChar_ne_nil sep rest)
      | cons t ts =>
        rw [hs] at hl
        rcases List.mem_cons.mp hl with rfl | h'
        · rcases List.mem_cons.mp hx with rfl | hx'
          · exact List.mem_cons_self x rest
          · exact List.mem_cons_of_mem c
              (ih t (hs ▸ List.mem_cons_self t ts) hx')
        · exact List.mem_cons_of_mem c
            (ih l (hs ▸ List.mem_cons_of_mem t h') hx)

theorem splitOnChar_append (sep : Char) (l rest : Str) (hl : sep ∉ l) :
    splitOnChar sep (l ++ sep :: rest) = l :: splitOnChar sep rest := by
  induction l with
  | nil => simp [splitOnChar]
  | cons c l' ih =>
    have hc : c ≠ sep := fun h => hl (h ▸ List.mem_cons_self c l')
    have hl' : sep ∉ l' := fun h => hl (List.mem_cons_of_mem c h)
    rw [List.cons_append, splitOnChar, if_neg hc, ih hl']
    rfl

theorem joinSep_splitOnChar (sep : Char) (s : Str) :
    joinSep sep (splitOnChar sep s) = s := by
  induction s with
  | nil => rfl
  | cons c rest ih =>
    rw [splitOnChar]
    split
    · rename_i hc
      subst hc
      cases hs : splitOnChar c rest with
      | nil => exact absurd hs (splitOnChar_ne_nil c rest)
      | cons t ts =>
        have h2 := ih
        rw [hs] at h2
        rw [joinSep, List.nil_append, h2]
    · cases hs : splitOnChar sep rest with
      | nil => exact absurd hs (splitOnChar_ne_nil sep rest)
      | cons t ts =>
        have h2 := ih
        rw [hs] at h2
        rw [consHead]
        cases ts with
        | nil =>
          rw [joinSep]
          rw [joinSep] at h2
          rw [h2]
        | cons t' ts' =>
          rw [joinSep]
          rw [joinSep] at h2
          rw [List.cons_append, h2]

theorem splitN3_recompose (a b cnt : Str) (ha : ' ' ∉ a) (hb : ' ' ∉ b) :
    splitN3 (a ++ ' ' :: (b ++ ' ' :: cnt)) = [a, b, cnt] := by
  rw [splitN3, splitOnChar_append ' ' a _ ha, splitOnChar_append ' ' b _ hb]
  cases hs : splitOnChar ' ' cnt with
  | nil => exact absurd hs (splitOnChar_ne_nil ' ' cnt)
  | cons t ts =>
    have hj : joinSep ' ' (t :: ts) = cnt := hs ▸ joinSep_splitOnChar ' ' cnt
    simp [hj]

/-! ## The text-highlighting rescan (cmd.go:465-511)

On entry to `peek`, when `PeekSearch` or `PeekSearchPrev` is non-empty,
the scrollback text is split into lines; every non-empty line is split
into at most three space-separated fields (ordinal, timestamp, content);
in the content field stale highlight markup for the previous search term
is stripped and markup for the new term is applied; the fields are
reassembled and the whole text is replaced. -/

/-- `SearchHighlightFmt = "[blue:gray]%s[-:-]"` (cmd.go:23) applied to a
term by `fmt.Sprintf`. -/
def searchHighlightFmt (s : Str) : Str :=
  "[blue:gray]".data ++ s ++ "[-:-]".data

/-- cmd.go:489-494: if a previous search term is set and its
highlight-wrapped form occurs in the content, unwrap every occurrence
back to the plain term. -/
def stripPrev (prev c : Str) : Str :=
  if !prev.isEmpty && hasSub c (searchHighlightFmt prev) then
    replaceAll (searchHighlightFmt prev) prev c
  else c

/-- cmd.go:496-502: if the new search term is set, occurs in the content,
and is not already wrapped, wrap every occurrence with the highlight
marker. -/
def applySearch (srch c : Str) : Str :=
  if !srch.isEmpty && !hasSub c (searchHighlightFmt srch) && hasSub c srch then
    replaceAll srch (searchHighlightFmt srch) c
  else c

/-- The full content-field update of the rescan: strip the stale marker,
then apply the new one (cmd.go:487-502). -/
def highlightContent (prev srch c : Str) : Str :=
  applySearch srch (stripPrev prev c)

/-- The rescan's per-line update (cmd.go:476-504): lines with fewer than
three space-separated fields pass through; otherwise ordinal and
timestamp are kept and the content field is rewritten. -/
def highlightLine (prev srch line : Str) : Str :=
  match splitN3 line with
  | [a, b, c] => a ++ ' ' :: (b ++ ' ' :: highlightContent prev srch c)
  | _ => line

/-- The rescan's line loop (cmd.go:471-505): every non-empty line is
processed and written back followed by a newline (empty lines are
skipped by the `continue` at cmd.go:472-474). -/
def renderLines (prev srch : Str) : List Str → Str
  | [] => []
  | l :: ls => highlightLine prev srch l ++ '\n' :: renderLines prev srch ls

/-- The whole rescan body (cmd.go:467-505): split the scrollback text on
newlines, process every non-empty line, and concatenate the results. -/
def rescanBody (prev srch text : Str) : Str :=
  renderLines prev srch ((splitOnChar '\n' text).filter (fun l => !l.isEmpty))

/-- The guarded rescan as performed by `peek` (cmd.go:465-511): the text
is rewritten only when the new or the previous search term is
non-empty. -/
def peekRescan (prev srch text : Str) : Str :=
  if !srch.isEmpty || !prev.isEmpty then rescanBody prev srch text else text

/-! ### Structure of the search-highlight marker -/

theorem searchHighlightFmt_cons (s : Str) :
    searchHighlightFmt s =
      '[' :: 'b' :: 'l' :: 'u' :: 'e' :: ':' :: 'g' :: 'r' :: 'a' :: 'y' :: ']' ::
        (s ++ '[' :: '-' :: ':' :: '-' :: ']' :: []) := rfl

theorem length_searchHighlightFmt (s : Str) :
    (searchHighlightFmt s).length = s.length + 16 := by
  rw [searchHighlightFmt_cons]
  simp only [List.length_cons, List.length_append, List.length_nil]

theorem searchHighlightFmt_ne_nil (s : Str) : searchHighlightFmt s ≠ [] := by
  rw [searchHighlightFmt_cons]
  simp

/-- Dropping past the fixed prefix of the marker lands in `s ++ "[-:-]"`. -/
theorem searchHighlightFmt_drop (s : Str) (k : Nat) :
    (searchHighlightFmt s).drop (k + 11) =
      (s ++ '[' :: '-' :: ':' :: '-' :: ']' :: []).drop k := by
  rw [searchHighlightFmt_cons]
  rfl

/-- The key combinatorial fact behind the round-trip of highlighting: when
the search term contains no `'['`, the marker string `searchHighlightFmt s`
has no non-trivial border (no proper prefix that is also a suffix), so
occurrences of the marker cannot overlap each other or partial copies. -/
theorem noBorder (T : Str) (hBr : '[' ∉ T) (l : Nat) (h1 : 0 < l)
    (h2 : l < (searchHighlightFmt T).length)
    (heq : (searchHighlightFmt T).take l
      = (searchHighlightFmt T).drop ((searchHighlightFmt T).length - l)) :
    False := by
  have hlen := length_searchHighlightFmt T
  have hhead : ((searchHighlightFmt T).take l).head? = some '[' := by
    obtain ⟨m, rfl⟩ : ∃ m, l = m + 1 := ⟨l - 1, by omega⟩
    rw [searchHighlightFmt_cons]
    rfl
  have hdrop := heq ▸ hhead
  have hj : (searchHighlightFmt T).length - l =
      (searchHighlightFmt T).length - l := rfl
  generalize hgen : (searchHighlightFmt T).length - l = j at hdrop
  have hj0 : 0 < j := by omega
  have hjlt : j < T.length + 16 := by omega
  rcases Nat.lt_or_ge j 11 with hA | hBC
  · interval_cases j <;>
      · rw [searchHighlightFmt_cons] at hdrop
        simp only [List.drop_succ_cons, List.drop_zero, List.head?_cons,
          Option.some.injEq] at hdrop
        exact absurd hdrop (by decide)
  · rcases Nat.lt_or_ge j (11 + T.length) with hB | hC
    · -- inside the term portion: its head is a character of T
      obtain ⟨k, rfl⟩ : ∃ k, j = k + 11 := ⟨j - 11, by omega⟩
      have hk : k < T.length := by omega
      rw [searchHighlightFmt_drop] at hdrop
      rw [List.drop_append_eq_append_drop] at hdrop
      have hd : T.drop k ≠ [] := by
        intro hnil
        have := List.length_drop k T ▸ congrArg List.length hnil
        simp at this
        omega
      obtain ⟨h0, hrest, hTd⟩ : ∃ h0 hrest, T.drop k = h0 :: hrest := by
        cases hTd : T.drop k with
        | nil => exact absurd hTd hd
        | cons h0 hrest => exact ⟨h0, hrest, rfl⟩
      rw [hTd] at hdrop
      simp only [List.cons_append, List.head?_cons, Option.some.injEq] at hdrop
      exact hBr (List.drop_subset k T (hTd ▸ (hdrop ▸ List.mem_cons_self h0 hrest)))
    · -- inside the trailing "[-:-]": only its first character is '['
      obtain ⟨k, rfl⟩ : ∃ k, j = (T.length + k) + 11 := ⟨j - 11 - T.length, by omega⟩
      have hk : k < 5 := by omega
      rw [searchHighlightFmt_drop, List.drop_append_eq_append_drop,
        List.drop_eq_nil_of_le (by omega), List.nil_append] at hdrop
      have hTk : T.length + k - T.length = k := by omega
      rw [hTk] at hdrop
      interval_cases k
      · -- the border would have length 5: compare "[blue" with "[-:-]"
        have hl5 : l = 5 := by omega
        subst hl5
        have ht5 : (searchHighlightFmt T).take 5 =
            '[' :: 'b' :: 'l' :: 'u' :: 'e' :: [] := by
          rw [searchHighlightFmt_cons]
          rfl
        have hd5 : (searchHighlightFmt T).drop ((searchHighlightFmt T).length - 5) =
            '[' :: '-' :: ':' :: '-' :: ']' :: [] := by
          have h11 : (searchHighlightFmt T).length - 5 = (T.length + 0) + 11 := by
            omega
          rw [h11, searchHighlightFmt_drop, List.drop_append_eq_append_drop,
            List.drop_eq_nil_of_le (by omega), List.nil_append]
          simp
        rw [ht5, hd5] at heq
        exact absurd heq (by decide)
      · exact absurd hdrop (by decide)
      · exact absurd hdrop (by decide)
      · exact absurd hdrop (by decide)
      · exact absurd hdrop (by decide)

/-! ### Decomposition of a replace pass and round-trip inversion -/

/-- Either the pattern never fires, or the input splits around a replaced
occurrence. -/
theorem wrap_decomp (T W : Str) (hT : T ≠ []) (s : Str) :
    replaceAll T W s = s ∨
      ∃ b d, s = b ++ (T ++ d) ∧
        replaceAll T W s = b ++ (W ++ replaceAll T W d) := by
  induction s with
  | nil => exact Or.inl (replaceAll_nil T W hT)
  | cons a t ih =>
    by_cases hpre : isPre T (a :: t) = true
    · obtain ⟨d, hd⟩ := (isPre_prefix_iff T (a :: t)).mp hpre
      refine Or.inr ⟨[], d, by simp [← hd], ?_⟩
      rw [replaceAll_pos T W _ hT hpre]
      rw [show (a :: t).drop T.length = d from by rw [← hd, List.drop_left]]
      simp
    · rw [Bool.not_eq_true] at hpre
      rcases ih with heq | ⟨b, d, hbd, hwt⟩
      · refine Or.inl ?_
        rw [replaceAll_neg T W a t hT hpre, heq]
      · refine Or.inr ⟨a :: b, d, by rw [hbd, List.cons_append], ?_⟩
        rw [replaceAll_neg T W a t hT hpre, hwt, List.cons_append]

/-- Round-trip inversion: wrapping every occurrence of `T` with the search
marker and then unwrapping the marker restores the input, provided the
input did not already contain the marker and `T` contains no `'['` (so the
marker cannot overlap itself). -/
theorem strip_wrap_aux (T : Str) (hT : T ≠ []) (hBr : '[' ∉ T) :
    ∀ n c, List.length c ≤ n → hasSub c (searchHighlightFmt T) = false →
      replaceAll (searchHighlightFmt T) T (replaceAll T (searchHighlightFmt T) c)
        = c := by
  have hWne := searchHighlightFmt_ne_nil T
  intro n
  induction n with
  | zero =>
    intro c hlen _
    have hc : c = [] := List.length_eq_zero.mp (Nat.le_zero.mp hlen)
    subst hc
    rw [replaceAll_nil _ _ hT, replaceAll_nil _ _ hWne]
  | succ n ih =>
    intro c hlen hW
    cases c with
    | nil => rw [replaceAll_nil _ _ hT, replaceAll_nil _ _ hWne]
    | cons a t =>
      by_cases hpre : isPre T (a :: t) = true
      · obtain ⟨d, hd⟩ := (isPre_prefix_iff T (a :: t)).mp hpre
        rw [replaceAll_pos T _ _ hT hpre]
        rw [show (a :: t).drop T.length = d from by rw [← hd, List.drop_left]]
        have hpreW : isPre (searchHighlightFmt T)
            (searchHighlightFmt T ++ replaceAll T (searchHighlightFmt T) d)
              = true :=
          (isPre_prefix_iff _ _).mpr ⟨_, rfl⟩
        rw [replaceAll_pos _ T _ hWne hpreW, List.drop_left]
        have hdlen : List.length d ≤ n := by
          have h1 := congrArg List.length hd
          have h2 : 0 < T.length := List.length_pos.mpr hT
          simp only [List.length_append, List.length_cons] at h1 hlen
          omega
        have hdW : hasSub d (searchHighlightFmt T) = false := by
          apply hasSub_suffix_false T d
          rw [hd]
          exact hW
        rw [ih d hdlen hdW]
        exact hd
      · rw [Bool.not_eq_true] at hpre
        rw [replaceAll_neg T _ a t hT hpre]
        have hWnotpre : isPre (searchHighlightFmt T)
            (a :: replaceAll T (searchHighlightFmt T) t) = false := by
          by_contra hcon
          rw [Bool.not_eq_false] at hcon
          have hWpre := (isPre_prefix_iff _ _).mp hcon
          rcases wrap_decomp T (searchHighlightFmt T) hT t with heq | ⟨b, d, hbd, hwt⟩
          · rw [heq] at hWpre
            have hin : hasSub (a :: t) (searchHighlightFmt T) = true := by
              rw [hasSub_infix_iff]
              exact hWpre.isInfix
            rw [hin] at hW
            cases hW
          · rw [hwt] at hWpre
            have hWpre' : searchHighlightFmt T <+:
                (a :: b) ++ (searchHighlightFmt T ++ replaceAll T (searchHighlightFmt T) d) := by
              rw [List.cons_append]
              exact hWpre
            have h1 := List.prefix_iff_eq_take.mp hWpre'
            rw [List.take_append_eq_append_take] at h1
            rcases le_or_lt (searchHighlightFmt T).length (a :: b).length
              with hle | hlt
            · have hz : (searchHighlightFmt T).length - (a :: b).length = 0 :=
                Nat.sub_eq_zero_of_le hle
              rw [hz, List.take_zero, List.append_nil] at h1
              have hWp : searchHighlightFmt T <+: a :: b :=
                h1 ▸ List.take_prefix _ _
              have hin : hasSub (a :: t) (searchHighlightFmt T) = true := by
                rw [hasSub_infix_iff, hbd, ← List.cons_append]
                exact (hWp.trans (List.prefix_append _ _)).isInfix
              rw [hin] at hW
              cases hW
            · have hab : (a :: b).take (searchHighlightFmt T).length = a :: b :=
                List.take_of_length_le (Nat.le_of_lt hlt)
              rw [hab] at h1
              have hdropW : (searchHighlightFmt T).drop (a :: b).length =
                  (searchHighlightFmt T ++ replaceAll T (searchHighlightFmt T) d).take
                    ((searchHighlightFmt T).length - (a :: b).length) := by
                conv_lhs => rw [h1]
                rw [List.drop_left]
              have htake2 : (searchHighlightFmt T ++
                    replaceAll T (searchHighlightFmt T) d).take
                      ((searchHighlightFmt T).length - (a :: b).length) =
                  (searchHighlightFmt T).take
                    ((searchHighlightFmt T).length - (a :: b).length) := by
                rw [List.take_append_eq_append_take]
                have hz2 : (searchHighlightFmt T).length - (a :: b).length -
                    (searchHighlightFmt T).length = 0 := by omega
                rw [hz2, List.take_zero, List.append_nil]
              have hlen2 : (searchHighlightFmt T).length -
                  ((searchHighlightFmt T).length - (a :: b).length) =
                    (a :: b).length := by
                omega
              have habpos : 0 < (a :: b).length := by simp
              have hWlen : 0 < (searchHighlightFmt T).length := by
                rw [length_searchHighlightFmt]
                omega
              refine noBorder T hBr
                ((searchHighlightFmt T).length - (a :: b).length)
                (by omega) (by omega) ?_
              rw [hlen2]
              exact (hdropW.trans htake2).symm
        rw [replaceAll_neg _ T a _ hWne hWnotpre]
        have htlen : List.length t ≤ n := by
          simp only [List.length_cons] at hlen
          omega
        rw [ih t htlen (hasSub_cons_false a t _ hW)]

/-- Convenience wrapper of `strip_wrap_aux` without the fuel argument. -/
theorem strip_wrap (T c : Str) (hT : T ≠ []) (hBr : '[' ∉ T)
    (hW : hasSub c (searchHighlightFmt T) = false) :
    replaceAll (searchHighlightFmt T) T (replaceAll T (searchHighlightFmt T) c)
      = c :=
  strip_wrap_aux T hT hBr c.length c le_rfl hW

/-! ### Idempotence of the per-content update -/

theorem stripPrev_id (prev c : Str)
    (h : prev = [] ∨ hasSub c (searchHighlightFmt prev) = false) :
    stripPrev prev c = c := by
  have hcond : (!prev.isEmpty && hasSub c (searchHighlightFmt prev)) = false := by
    rcases h with rfl | h
    · simp
    · simp [h]
  simp [stripPrev, hcond]

theorem applySearch_idem (srch c : Str) :
    applySearch srch (applySearch srch c) = applySearch srch c := by
  by_cases hg : (!srch.isEmpty && !hasSub c (searchHighlightFmt srch) &&
      hasSub c srch) = true
  · have hg' := hg
    simp only [Bool.and_eq_true, Bool.not_eq_true'] at hg'
    obtain ⟨⟨hne, _⟩, hsub⟩ := hg'
    have hsne : srch ≠ [] := by
      intro hnil
      rw [hnil] at hne
      cases hne
    have h1 : applySearch srch c = replaceAll srch (searchHighlightFmt srch) c := by
      rw [applySearch, if_pos hg]
    have h2 : hasSub (replaceAll srch (searchHighlightFmt srch) c)
        (searchHighlightFmt srch) = true :=
      hasSub_rep_replaceAll srch _ c hsne hsub
    rw [h1, applySearch, if_neg (by simp [h2])]
  · have h1 : applySearch srch c = c := by
      rw [applySearch, if_neg hg]
    rw [h1, applySearch, if_neg hg]

theorem highlightContent_idem (prev srch c : Str)
    (h : prev = [] ∨
      hasSub (highlightContent prev srch c) (searchHighlightFmt prev) = false) :
    highlightContent prev srch (highlightContent prev srch c)
      = highlightContent prev srch c := by
  rw [highlightContent]
  rw [stripPrev_id prev _ h]
  rw [highlightContent]
  exact applySearch_idem srch (stripPrev prev c)

/-! ### Shape analysis of the per-line update -/

theorem splitN3_eq_three (line a b c : Str) (h : splitN3 line = [a, b, c]) :
    ∃ rest, splitOnChar ' ' line = a :: b :: rest ∧ c = joinSep ' ' rest := by
  rw [splitN3] at h
  cases hs : splitOnChar ' ' line with
  | nil => rw [hs] at h; simp at h
  | cons x xs =>
    cases xs with
    | nil => rw [hs] at h; simp at h
    | cons y ys =>
      cases ys with
      | nil => rw [hs] at h; simp at h
      | cons z zs =>
        rw [hs] at h
        simp only [List.cons.injEq] at h
        obtain ⟨rfl, rfl, hc, -⟩ := h
        exact ⟨z :: zs, rfl, hc.symm⟩

theorem highlightLine_eq_of_three (prev srch line a b c : Str)
    (h : splitN3 line = [a, b, c]) :
    highlightLine prev srch line
      = a ++ ' ' :: (b ++ ' ' :: highlightContent prev srch c) := by
  rw [highlightLine, h]

theorem highlightLine_eq_of_not_three (prev srch line : Str)
    (h : (splitN3 line).length ≠ 3) :
    highlightLine prev srch line = line := by
  rw [highlightLine]
  cases hs : splitN3 line with
  | nil => rfl
  | cons x xs =>
    cases xs with
    | nil => rfl
    | cons y ys =>
      cases ys with
      | nil => rfl
      | cons z zs =>
        cases zs with
        | nil => rw [hs] at h; simp at h
        | cons w ws => rfl

/-- Fields of the split never contain a space, so the reassembled line
splits back into the same ordinal and timestamp with the new content. -/
theorem splitN3_highlightLine (prev srch line a b c : Str)
    (h : splitN3 line = [a, b, c]) :
    splitN3 (highlightLine prev srch line)
      = [a, b, highlightContent prev srch c] := by
  obtain ⟨rest, hs, -⟩ := splitN3_eq_three line a b c h
  have ha : ' ' ∉ a := not_sep_mem_splitOnChar ' ' line a
    (hs ▸ List.mem_cons_self a (b :: rest))
  have hb : ' ' ∉ b := not_sep_mem_splitOnChar ' ' line b
    (hs ▸ List.mem_cons_of_mem a (List.mem_cons_self b rest))
  rw [highlightLine_eq_of_three prev srch line a b c h]
  exact splitN3_recompose a b (highlightContent prev srch c) ha hb

/-! ### Character provenance through the highlighter -/

theorem mem_stripPrev (prev c : Str) (x : Char) (h : x ∈ stripPrev prev c) :
    x ∈ c := by
  rw [stripPrev] at h
  split at h
  · rename_i hg
    simp only [Bool.and_eq_true, Bool.not_eq_true'] at hg
    obtain ⟨-, hsub⟩ := hg
    rcases mem_replaceAll _ _ _ _ h with h' | h'
    · exact h'
    · have hinf : searchHighlightFmt prev <:+: c := (hasSub_infix_iff _ _).mp hsub
      exact hinf.subset (by
        rw [searchHighlightFmt_cons]
        simp only [List.mem_cons, List.mem_append]
        right
        right
        right
        right
        right
        right
        right
        right
        right
        right
        right
        exact Or.inl h')
  · exact h

theorem mem_applySearch (srch c : Str) (x : Char) (h : x ∈ applySearch srch c) :
    x ∈ c ∨ x ∈ ("[blue:gray]".data ++ "[-:-]".data) := by
  rw [applySearch] at h
  split at h
  · rename_i hg
    simp only [Bool.and_eq_true, Bool.not_eq_true'] at hg
    obtain ⟨-, hsub⟩ := hg
    rcases mem_replaceAll _ _ _ _ h with h' | h'
    · exact Or.inl h'
    · rw [searchHighlightFmt_cons] at h'
      simp only [List.mem_cons, List.mem_append] at h'
      have hinf : srch <:+: c := (hasSub_infix_iff _ _).mp hsub
      rcases h' with rfl | rfl | rfl | rfl | rfl | rfl | rfl | rfl | rfl | rfl
        | rfl | h''
      · exact Or.inr (by decide)
      · exact Or.inr (by decide)
      · exact Or.inr (by decide)
      · exact Or.inr (by decide)
      · exact Or.inr (by decide)
      · exact Or.inr (by decide)
      · exact Or.inr (by decide)
      · exact Or.inr (by decide)
      · exact Or.inr (by decide)
      · exact Or.inr (by decide)
      · exact Or.inr (by decide)
      · rcases h'' with h3 | h3
        · exact Or.inl (hinf.subset h3)
        · exact Or.inr (by
            simp only [List.mem_append]
            right
            simpa using h3)
  · exact Or.inl h

theorem mem_highlightContent (prev srch c : Str) (x : Char)
    (h : x ∈ highlightContent prev srch c) :
    x ∈ c ∨ x ∈ ("[blue:gray]".data ++ "[-:-]".data) := by
  rw [highlightContent] at h
  rcases mem_applySearch srch _ x h with h' | h'
  · exact Or.inl (mem_stripPrev prev c x h')
  · exact Or.inr h'

theorem mem_joinSep (sep : Char) (ls : List Str) (x : Char)
    (h : x ∈ joinSep sep ls) : (∃ l ∈ ls, x ∈ l) ∨ x = sep := by
  induction ls with
  | nil => simp [joinSep] at h
  | cons l ls ih =>
    cases ls with
    | nil =>
      rw [joinSep] at h
      exact Or.inl ⟨l, List.mem_singleton.mpr rfl, h⟩
    | cons l' ls' =>
      rw [joinSep] at h
      rcases List.mem_append.mp h with h' | h'
      · exact Or.inl ⟨l, List.mem_cons_self _ _, h'⟩
      · rcases List.mem_cons.mp h' with rfl | h''
        · exact Or.inr rfl
        · rcases ih h'' with ⟨l2, hl2, hx⟩ | rfl
          · exact Or.inl ⟨l2, List.mem_cons_of_mem l hl2, hx⟩
          · exact Or.inr rfl

theorem mem_highlightLine (prev srch line : Str) (x : Char)
    (h : x ∈ highlightLine prev srch line) :
    x ∈ line ∨ x ∈ ("[blue:gray]".data ++ "[-:-]".data) ∨ x = ' ' := by
  by_cases h3 : (splitN3 line).length = 3
  · obtain ⟨a, b, c, habc⟩ : ∃ a b c, splitN3 line = [a, b, c] := by
      cases hs : splitN3 line with
      | nil => rw [hs] at h3; simp at h3
      | cons p ps =>
        cases ps with
        | nil => rw [hs] at h3; simp at h3
        | cons q qs =>
          cases qs with
          | nil => rw [hs] at h3; simp at h3
          | cons r rs =>
            cases rs with
            | nil => exact ⟨p, q, r, rfl⟩
            | cons w ws => rw [hs] at h3; simp at h3
    obtain ⟨rest, hs, hc⟩ := splitN3_eq_three line a b c habc
    rw [highlightLine_eq_of_three prev srch line a b c habc] at h
    simp only [List.mem_append, List.mem_cons] at h
    rcases h with h' | rfl | h'
    · exact Or.inl (mem_of_mem_splitOnChar ' ' line a x
        (hs ▸ List.mem_cons_self a (b :: rest)) h')
    · exact Or.inr (Or.inr rfl)
    · rcases h' with h'' | rfl | h''
      · exact Or.inl (mem_of_mem_splitOnChar ' ' line b x
          (hs ▸ List.mem_cons_of_mem a (List.mem_cons_self b rest)) h'')
      · exact Or.inr (Or.inr rfl)
      · rcases mem_highlightContent prev srch c x h'' with h4 | h4
        · rw [hc] at h4
          rcases mem_joinSep ' ' rest x h4 with ⟨l2, hl2, hx⟩ | rfl
          · exact Or.inl (mem_of_mem_splitOnChar ' ' line l2 x
              (hs ▸ List.mem_cons_of_mem a (List.mem_cons_of_mem b hl2)) hx)
          · exact Or.inr (Or.inr rfl)
        · exact Or.inr (Or.inl h4)
  · rw [highlightLine_eq_of_not_three prev srch line h3] at h
    exact Or.inl h

theorem newline_not_mem_highlightLine (prev srch line : Str)
    (h : '\n' ∉ line) : '\n' ∉ highlightLine prev srch line := by
  intro hmem
  rcases mem_highlightLine prev srch line '\n' hmem with h' | h' | h'
  · exact h h'
  · exact absurd h' (by decide)
  · exact absurd h' (by decide)

theorem highlightLine_ne_nil (prev srch line : Str) (h : line ≠ []) :
    highlightLine prev srch line ≠ [] := by
  by_cases h3 : (splitN3 line).length = 3
  · obtain ⟨a, b, c, habc⟩ : ∃ a b c, splitN3 line = [a, b, c] := by
      cases hs : splitN3 line with
      | nil => rw [hs] at h3; simp at h3
      | cons p ps =>
        cases ps with
        | nil => rw [hs] at h3; simp at h3
        | cons q qs =>
          cases qs with
          | nil => rw [hs] at h3; simp at h3
          | cons r rs =>
            cases rs with
            | nil => exact ⟨p, q, r, rfl⟩
            | cons w ws => rw [hs] at h3; simp at h3
    rw [highlightLine_eq_of_three prev srch line a b c habc]
    simp
  · rw [highlightLine_eq_of_not_three prev srch line h3]
    exact h

/-! ### The rescan preserves the line structure of its own output -/

theorem splitOnChar_renderLines (prev srch : Str) (ls : List Str)
    (h : ∀ l ∈ ls, '\n' ∉ highlightLine prev srch l) :
    splitOnChar '\n' (renderLines prev srch ls)
      = ls.map (highlightLine prev srch) ++ [[]] := by
  induction ls with
  | nil => rfl
  | cons l ls ih =>
    rw [renderLines, splitOnChar_append '\n' _ _ (h l (List.mem_cons_self l ls))]
    rw [ih (fun l' hl' => h l' (List.mem_cons_of_mem l hl'))]
    rfl

theorem filter_renderLines_split (prev srch : Str) (ls : List Str)
    (hnl : ∀ l ∈ ls, '\n' ∉ highlightLine prev srch l)
    (hne : ∀ l ∈ ls, highlightLine prev srch l ≠ []) :
    (splitOnChar '\n' (renderLines prev srch ls)).filter (fun l => !l.isEmpty)
      = ls.map (highlightLine prev srch) := by
  rw [splitOnChar_renderLines prev srch ls hnl, List.filter_append]
  have h1 : List.filter (fun l => !l.isEmpty) [([] : Str)] = [] := by rfl
  rw [h1, List.append_nil]
  rw [List.filter_eq_self]
  intro l' hl'
  obtain ⟨l, hl, rfl⟩ := List.mem_map.mp hl'
  simpa using hne l hl

theorem renderLines_map_idem (prev srch : Str) (ls : List Str)
    (h : ∀ l ∈ ls,
      highlightLine prev srch (highlightLine prev srch l)
        = highlightLine prev srch l) :
    renderLines prev srch (ls.map (highlightLine prev srch))
      = renderLines prev srch ls := by
  induction ls with
  | nil => rfl
  | cons l ls ih =>
    rw [List.map_cons, renderLines, renderLines,
      h l (List.mem_cons_self l ls),
      ih (fun l' hl' => h l' (List.mem_cons_of_mem l hl'))]

/-- Second pass of the rescan body is a no-op, provided no processed line
still contains the previous-search marker (or there is no previous
search). -/
theorem rescanBody_idem (prev srch text : Str)
    (h : ∀ l ∈ (splitOnChar '\n' text).filter (fun l => !l.isEmpty),
      prev = [] ∨
        hasSub (highlightLine prev srch l) (searchHighlightFmt prev) = false) :
    rescanBody prev srch (rescanBody prev srch text)
      = rescanBody prev srch text := by
  have hmemsplit : ∀ l ∈ (splitOnChar '\n' text).filter (fun l => !l.isEmpty),
      '\n' ∉ l ∧ l ≠ [] := by
    intro l hl
    have h1 := List.mem_of_mem_filter hl
    have h2 := List.of_mem_filter hl
    refine ⟨not_sep_mem_splitOnChar '\n' text l h1, ?_⟩
    simpa using h2
  rw [rescanBody, rescanBody]
  rw [filter_renderLines_split prev srch _
    (fun l hl => newline_not_mem_highlightLine prev srch l (hmemsplit l hl).1)
    (fun l hl => highlightLine_ne_nil prev srch l (hmemsplit l hl).2)]
  apply renderLines_map_idem
  intro l hl
  -- per-line idempotence
  by_cases h3 : (splitN3 l).length = 3
  · obtain ⟨a, b, c, habc⟩ : ∃ a b c, splitN3 l = [a, b, c] := by
      cases hs : splitN3 l with
      | nil => rw [hs] at h3; simp at h3
      | cons p ps =>
        cases ps with
        | nil => rw [hs] at h3; simp at h3
        | cons q qs =>
          cases qs with
          | nil => rw [hs] at h3; simp at h3
          | cons r rs =>
            cases rs with
            | nil => exact ⟨p, q, r, rfl⟩
            | cons w ws => rw [hs] at h3; simp at h3
    have hsecond := splitN3_highlightLine prev srch l a b c habc
    rw [highlightLine_eq_of_three prev srch _ a b
      (highlightContent prev srch c) hsecond]
    rw [highlightLine_eq_of_three prev srch l a b c habc]
    have hcontent : prev = [] ∨
        hasSub (highlightContent prev srch c) (searchHighlightFmt prev)
          = false := by
      rcases h l hl with hnil | hfalse
      · exact Or.inl hnil
      · right
        rw [highlightLine_eq_of_three prev srch l a b c habc] at hfalse
        have hshape : a ++ ' ' :: (b ++ ' ' :: highlightContent prev srch c)
            = (a ++ ' ' :: (b ++ [' '])) ++ highlightContent prev srch c := by
          simp
        rw [hshape] at hfalse
        exact hasSub_suffix_false _ _ _ hfalse
    rw [highlightContent_idem prev srch c hcontent]
  · rw [highlightLine_eq_of_not_three prev srch l h3,
      highlightLine_eq_of_not_three prev srch l h3]

/-! ## Claims about the text-highlighting rescan (C2, C3, C6) -/

/-- A scrollback whose single line carries nested copies of the previous
search marker: stripping the marker once recreates the marker. -/
def nestedMarkerText : Str := "1 2 [blue:gray][blue:gray]x[-:-][-:-]\n".data

/-- C2 counterexample: the rescan is *not* idempotent for every scrollback
text — with `previousSearch = "x"` and empty `search`, a line whose content
is `"[blue:gray][blue:gray]x[-:-][-:-]"` is rewritten to
`"[blue:gray]x[-:-]"` by the first pass and to `"x"` by the second. -/
theorem C2_counterexample :
    peekRescan "x".data [] (peekRescan "x".data [] nestedMarkerText)
      ≠ peekRescan "x".data [] nestedMarkerText := by
  decide

/-- C2 (amended): the rescan is idempotent whenever, after one pass, no
processed line still contains the previous-search highlight marker (in
particular whenever there is no previous search term); the counterexample
shows the unrestricted claim fails when stripping the marker recreates
it. -/
theorem C2_amended (prev srch text : Str)
    (h : ∀ l ∈ (splitOnChar '\n' text).filter (fun l => !l.isEmpty),
      prev = [] ∨
        hasSub (highlightLine prev srch l) (searchHighlightFmt prev) = false) :
    peekRescan prev srch (peekRescan prev srch text)
      = peekRescan prev srch text := by
  by_cases hg : (!srch.isEmpty || !prev.isEmpty) = true
  · have hx : ∀ t, peekRescan prev srch t = rescanBody prev srch t := by
      intro t
      rw [peekRescan, if_pos hg]
    simp only [hx]
    exact rescanBody_idem prev srch text h
  · have hx : ∀ t, peekRescan prev srch t = t := by
      intro t
      rw [peekRescan, if_neg hg]
    simp only [hx]

/-- Witness for C2 (amended) at a concrete scrollback. -/
theorem C2_amended_witness :
    (∀ l ∈ (splitOnChar '\n' "1 2 hello\n".data).filter (fun l => !l.isEmpty),
      "x".data = ([] : Str) ∨
        hasSub (highlightLine "x".data "ll".data l)
          (searchHighlightFmt "x".data) = false) ∧
    peekRescan "x".data "ll".data
        (peekRescan "x".data "ll".data "1 2 hello\n".data)
      = peekRescan "x".data "ll".data "1 2 hello\n".data :=
  ⟨by decide, C2_amended "x".data "ll".data "1 2 hello\n".data (by decide)⟩

/-- C3 counterexample: wrap-then-strip is *not* the identity for every
term.  With `T = "[-:-][blue:gray]"`, the content
`"[blue:gray][-:-][-:-][blue:gray]"` contains `T`, does not contain the
marker `searchHighlightFmt T`, yet highlighting `T` and then stripping it
(as `previousSearch`, with empty new search) yields
`"[-:-][blue:gray][blue:gray][-:-]"` — the marker `pre ++ T ++ suf` equals
`(pre ++ suf) ++ (pre ++ suf)` and overlaps itself, so the strip pass
removes a misaligned occurrence. -/
theorem C3_counterexample :
    hasSub "[blue:gray][-:-][-:-][blue:gray]".data "[-:-][blue:gray]".data
        = true ∧
    hasSub "[blue:gray][-:-][-:-][blue:gray]".data
        (searchHighlightFmt "[-:-][blue:gray]".data) = false ∧
    highlightContent "[-:-][blue:gray]".data []
        (highlightContent [] "[-:-][blue:gray]".data
          "[blue:gray][-:-][-:-][blue:gray]".data)
      ≠ "[blue:gray][-:-][-:-][blue:gray]".data := by
  refine ⟨by decide, by decide, by decide⟩

/-- C3 (amended): the wrap/strip round trip on a content field holds for
every term `T` that contains no `'['` (so the highlight marker cannot
overlap itself): if the content contains `T` but not the marker for `T`,
then applying the search highlight for `T` and rescanning with
`previousSearch = T` and a new search that is empty or absent restores the
content byte for byte. -/
theorem C3_amended (T S c : Str) (hT : T ≠ []) (hBr : '[' ∉ T)
    (hc : hasSub c T = true)
    (hw : hasSub c (searchHighlightFmt T) = false)
    (hS : S = [] ∨ hasSub c S = false) :
    highlightContent T S (highlightContent [] T c) = c := by
  have hTe : T.isEmpty = false := by
    cases T with
    | nil => exact absurd rfl hT
    | cons p ps => rfl
  have step1 : highlightContent [] T c
      = replaceAll T (searchHighlightFmt T) c := by
    rw [highlightContent, stripPrev_id [] c (Or.inl rfl), applySearch,
      if_pos (by simp [hTe, hw, hc])]
  rw [step1, highlightContent]
  have step4 : stripPrev T (replaceAll T (searchHighlightFmt T) c) = c := by
    have hin : hasSub (replaceAll T (searchHighlightFmt T) c)
        (searchHighlightFmt T) = true :=
      hasSub_rep_replaceAll T _ c hT hc
    rw [stripPrev, if_pos (by simp [hTe, hin])]
    exact strip_wrap T c hT hBr hw
  rw [step4, applySearch]
  rcases hS with rfl | hS
  · rw [if_neg (by simp)]
  · rw [if_neg (by simp [hS])]

/-- Witness for C3 (amended) at a concrete term and content. -/
theorem C3_amended_witness :
    ("er".data ≠ ([] : Str)) ∧ ('[' ∉ "er".data) ∧
    hasSub "error".data "er".data = true ∧
    hasSub "error".data (searchHighlightFmt "er".data) = false ∧
    (([] : Str) = [] ∨ hasSub "error".data ([] : Str) = false) ∧
    highlightContent "er".data []
        (highlightContent [] "er".data "error".data) = "error".data :=
  ⟨by decide, by decide, by decide, by decide, Or.inl rfl,
    C3_amended "er".data [] "error".data (by decide) (by decide) (by decide)
      (by decide) (Or.inl rfl)⟩

/-- A pause banner line exactly as injected by the peek loop
(cmd.go:540-547), with wall time `12:00:00`. -/
def pauseBannerExample : Str :=
  "[gray:black]".data ++ List.replicate 16 '░' ++ " PAUSED @ 12:00:00".data
    ++ List.replicate 16 '░' ++ "[-:-]".data

/-- C6 counterexample: a pause banner line does *not* fall into the
non-decomposing class and does *not* pass through unmodified — it contains
two spaces, so it splits into three fields, and a search for `"00"`
rewrites its tail. -/
theorem C6_counterexample :
    (splitN3 pauseBannerExample).length = 3 ∧
    highlightLine [] "00".data pauseBannerExample ≠ pauseBannerExample := by
  refine ⟨by decide, by decide⟩

/-- C6 (amended): lines that do not split into exactly three fields pass
through the rescan unmodified, and for lines that do split, the output
splits into the same ordinal and timestamp fields with only the content
rewritten; banner lines, however, contain at least two spaces and hence
belong to the second class. -/
theorem C6_amended (prev srch line : Str) :
    ((splitN3 line).length ≠ 3 → highlightLine prev srch line = line) ∧
    (∀ a b c, splitN3 line = [a, b, c] →
      splitN3 (highlightLine prev srch line)
        = [a, b, highlightContent prev srch c]) :=
  ⟨highlightLine_eq_of_not_three prev srch line,
    fun a b c h => splitN3_highlightLine prev srch line a b c h⟩

/-- Witness for C6 (amended) on a decomposing and a non-decomposing
line. -/
theorem C6_amended_witness :
    splitN3 (highlightLine [] "oo".data "1 2 foo".data)
      = ["1".data, "2".data, highlightContent [] "oo".data "foo".data] ∧
    highlightLine [] "oo".data "nofields".data = "nofields".data :=
  ⟨(C6_amended [] "oo".data "1 2 foo".data).2 "1".data "2".data "foo".data
      (by decide),
    (C6_amended [] "oo".data "nofields".data).1 (by decide)⟩

/-! ## The action data model (types.Action / types.Step)

The `types` package is not part of the sources, but every variant and
field is fixed by its uses in cmd.go and console.go: steps Connect,
Select, Peek, Filter, Search, Quit, Pause and the four `Peek*` string
fields (zero value: empty string). -/

inductive Step where
  | connect
  | select
  | peek
  | filter
  | search
  | quit
  | pause
deriving DecidableEq

structure Types.Action where
  step : Step
  peekComponent : Str := []
  peekFilter : Str := []
  peekSearch : Str := []
  peekSearchPrev : Str := []
deriving DecidableEq

/-- The mutable fields of `Cmd` (cmd.go:26-34) together with the console
state the handlers toggle: the pause flag, the one-shot filter-announce
flag, the on/off state of the Pause/Filter/Search menu entries
(console.SetMenuEntryOn/Off), and the text of the peek text view. -/
structure CmdState where
  paused : Bool := false
  announceFilter : Bool := false
  menuPause : Bool := false
  menuFilter : Bool := false
  menuSearch : Bool := false
  text : Str := []
deriving DecidableEq

/-! ## Dialog collaborators (console.go) -/

/-- How the user finishes the single-field form shown by
`DisplayFilter`/`DisplaySearch` (part_000:123-199): pressing OK after
editing the field to `text` (`hit = true`), pressing OK without touching
the field, pressing Reset, or pressing Cancel. -/
inductive FormChoice where
  | okPressed (edited : Option Str)
  | resetPressed
  | cancelPressed
deriving DecidableEq

/-- The string sent on `answerCh` by the form's button callbacks
(part_000:134-153 and 173-192): OK sends the edited text, or the default
when the field was never edited; Reset sends the empty string; Cancel
sends the default (original) value. -/
def formAnswer (defaultValue : Str) : FormChoice → Str
  | .okPressed (some text) => text
  | .okPressed none => defaultValue
  | .resetPressed => []
  | .cancelPressed => defaultValue

/-! ## Filter and Search handlers (cmd.go:103-176) -/

/-- `actionFilter` (cmd.go:103-139): show the filter form pre-filled with
the incoming action's filter, toggle the Filter menu entry on the answer,
set the one-shot announce flag, and return to Peek with the same component
and the answer as the new filter (search fields zero-valued). -/
def actionFilter (st : CmdState) (action : Types.Action) (choice : FormChoice) :
    CmdState × Types.Action :=
  let filterStr := formAnswer action.peekFilter choice
  ({ st with menuFilter := !filterStr.isEmpty, announceFilter := true },
   { step := Step.peek
     peekComponent := action.peekComponent
     peekFilter := filterStr })

/-- `actionSearch` (cmd.go:141-176): show the search form pre-filled with
the incoming action's search, toggle the Search menu entry, and return to
Peek with the same component, the answer as the new search, and the
incoming search carried as `PeekSearchPrev` (filter field zero-valued). -/
def actionSearch (st : CmdState) (action : Types.Action) (choice : FormChoice) :
    CmdState × Types.Action :=
  let searchStr := formAnswer action.peekSearch choice
  ({ st with menuSearch := !searchStr.isEmpty },
   { step := Step.peek
     peekComponent := action.peekComponent
     peekSearch := searchStr
     peekSearchPrev := action.peekSearch })

/-! ## Connect and Select handlers (cmd.go:178-341) -/

/-- Environment of one `actionConnect` run: the result of the
`c.connect(ctx)` attempt, the answer of the retry modal (read only on
failure), and whether the user dismissed the spinner modal. -/
structure ConnectEnv where
  connectErr : Option Str
  retryChosen : Bool
  userCancelled : Bool

/-- `actionConnect` (cmd.go:178-234): on a failed connection attempt show
the retry modal — retry yields a Connect action, quit yields Quit; on
success, a user cancel observed during the spinner yields Quit, otherwise
the next action is Select.  The handler never returns an error. -/
def actionConnect (env : ConnectEnv) : Types.Action :=
  match env.connectErr with
  | some _ =>
    if env.retryChosen then { step := Step.connect } else { step := Step.quit }
  | none =>
    if env.userCancelled then { step := Step.quit } else { step := Step.select }

/-- What the user does once the select list is displayed
(cmd.go:329-340): press the `q` shortcut, or pick a component. -/
inductive SelectOutcome where
  | quitKey
  | chose (component : Str)
deriving DecidableEq

/-- Environment of one `actionSelect` run: result of the audience fetch,
retry-modal answer (read only on failure), spinner cancel, and the list
outcome. -/
structure SelectEnv where
  fetchErr : Option Str
  retryChosen : Bool
  userCancelled : Bool
  outcome : SelectOutcome

/-- `actionSelect` (cmd.go:236-341): failed fetch → retry modal
(retry → Select, quit → Quit); user cancel → Quit; otherwise the `q`
shortcut yields Quit and a selection yields Peek of that component. -/
def actionSelect (env : SelectEnv) : Types.Action :=
  match env.fetchErr with
  | some _ =>
    if env.retryChosen then { step := Step.select } else { step := Step.quit }
  | none =>
    if env.userCancelled then { step := Step.quit }
    else
      match env.outcome with
      | .quitKey => { step := Step.quit }
      | .chose component => { step := Step.peek, peekComponent := component }

/-! ## The peek consumer loop (cmd.go:428-585) -/

/-- One arrival at the consumer's two-way `select` (cmd.go:522-584):
either a user command forwarded by `DisplayPeek` on `actionCh`, or a data
line on `dataCh`; `iObs` is the value of the shared line counter `i` the
consumer observes when it builds the line prefix (cmd.go:576). -/
inductive PeekEvent where
  | cmd (a : Types.Action)
  | data (iObs : Nat) (line : Str)
deriving DecidableEq

/-- The `░…░` banner shell shared by the filter and pause marker lines
(cmd.go:444 and cmd.go:546). -/
def bannerLine (status : Str) : Str :=
  "[gray:black]".data ++ List.replicate 16 '░' ++ status
    ++ List.replicate 16 '░' ++ "[-:-]".data

/-- The one-shot filter announcement line (cmd.go:443-445); `now` is the
wall time formatted `15:04:05`. -/
def filterBanner (filter now : Str) : Str :=
  bannerLine (" Filter set to '".data ++ filter ++ "' @ ".data ++ now)

/-- The PAUSED/RESUMED marker line (cmd.go:540-546) for the new value of
the paused flag. -/
def pauseBanner (nowPaused : Bool) (now : Str) : Str :=
  bannerLine ((if nowPaused then " PAUSED @ ".data else " RESUMED @ ".data)
    ++ now)

/-- Re-inject the session settings into an outgoing command
(cmd.go:550-554). -/
def stampAction (act cmd : Types.Action) : Types.Action :=
  { cmd with
    peekComponent := act.peekComponent
    peekFilter := act.peekFilter
    peekSearch := act.peekSearch
    peekSearchPrev := act.peekSearchPrev }

/-- One iteration of the consumer loop (cmd.go:522-584).  A command first
gets its Pause side effects when its step is Pause (toggle the flag, flip
the menu entry, append the marker line), is then stamped with the session
settings, and is returned — `Sum.inr` ends the loop for *every* command.
A data line is dropped unless it contains the filter; otherwise the filter
match and the search match are wrapped, the ordinal/timestamp prefix is
prepended, and the line is appended to the text view (`Sum.inl`
continues the loop). -/
def peekConsume (act : Types.Action) (now : Str) (st : CmdState) :
    PeekEvent → CmdState ⊕ (CmdState × Types.Action)
  | .cmd c =>
    let st' :=
      if c.step = Step.pause then
        let p := !st.paused
        { st with
          paused := p
          menuPause := p
          text := st.text ++ pauseBanner p now ++ ['\n'] }
      else st
    Sum.inr (st', stampAction act c)
  | .data iObs line =>
    if !hasSub line act.peekFilter then Sum.inl st
    else
      let d1 :=
        if !act.peekFilter.isEmpty then
          replaceAll act.peekFilter
            ("[green:gray]".data ++ act.peekFilter ++ "[-:-]".data) line
        else line
      let d2 :=
        if !act.peekSearch.isEmpty && hasSub d1 act.peekSearch then
          replaceAll act.peekSearch (searchHighlightFmt act.peekSearch) d1
        else d1
      let pfx := (Nat.repr iObs).data ++ ": [gray:black]".data ++ now
        ++ "[-:-] ".data
      Sum.inl { st with text := st.text ++ pfx ++ d2 ++ ['\n'] }

/-- Result of running the consumer loop over a finite event script:
either the script ran out with the loop still blocked in its `select`, or
a command ended the loop and is handed back. -/
inductive PeekResult where
  | blocked (st : CmdState)
  | returned (st : CmdState) (a : Types.Action)
deriving DecidableEq

def peekLoop (act : Types.Action) (now : Str) :
    CmdState → List PeekEvent → PeekResult
  | st, [] => .blocked st
  | st, e :: es =>
    match peekConsume act now st e with
    | Sum.inl st' => peekLoop act now st' es
    | Sum.inr (st', a) => .returned st' a

/-- `peek` (cmd.go:428-585): reject an empty component, print the one-shot
filter banner, run the highlight rescan when a search term or a previous
search term is set, then service the two-way select loop. -/
def peek (act : Types.Action) (now : Str) (st : CmdState)
    (events : List PeekEvent) : Except Str PeekResult :=
  if act.peekComponent.isEmpty then
    Except.error "peek(): bug? *Action.PeekComponent cannot be empty".data
  else
    let st1 :=
      if st.announceFilter then
        { st with
          announceFilter := false
          text := st.text ++ filterBanner act.peekFilter now ++ ['\n'] }
      else st
    let st2 := { st1 with
      text := peekRescan act.peekSearchPrev act.peekSearch st1.text }
    Except.ok (peekLoop act now st2 events)

/-- `actionPeek` (cmd.go:358-385): reject an empty component as a caller
bug, display/reuse the text view, run `peek`, wrap its errors, and pass
whatever action `peek` returned straight back to `run`. -/
def actionPeek (st : CmdState) (act : Types.Action) (now : Str)
    (events : List PeekEvent) : Except Str PeekResult :=
  if act.peekComponent.isEmpty then
    Except.error "actionPeek(): bug? PeekComponent cannot be empty".data
  else
    match peek act now st events with
    | Except.error e => Except.error ("unable to peek: ".data ++ e)
    | Except.ok r => Except.ok r

/-! ## The dispatcher `run` (cmd.go:67-99) -/

/-- The collaborator answers available to whichever handler the next
dispatch invokes: the connect environment, the select environment, the
form answer, the wall time, and the peek event script. -/
structure StepInput where
  connectEnv : ConnectEnv
  selectEnv : SelectEnv
  formChoice : FormChoice
  now : Str
  peekEvents : List PeekEvent

/-- How a (finite) modelled session ends: `quitted` models
`os.Exit(0)` on StepQuit (cmd.go:84-86); `blockedInPeek` means the
consumer loop was still waiting on its channels when the event script ran
out; `pending next` means fuel or script ran out with `next` about to be
dispatched. -/
inductive RunOutcome where
  | quitted
  | blockedInPeek
  | pending (next : Types.Action)
deriving DecidableEq

/-- `run` (cmd.go:67-99): dispatch on the action's step, invoke the
handler, propagate handler errors wrapped in `"unable to run action"`,
and recurse on the returned action (cmd.go:98).  StepPause is dispatched
back into `actionPeek` (cmd.go:87-89).  The returned list records the
step of every dispatched action in order. -/
def runModel : Nat → CmdState → Types.Action → List StepInput →
    Except Str (List Step × CmdState × RunOutcome)
  | 0, st, a, _ => Except.ok ([], st, .pending a)
  | _ + 1, st, a, [] => Except.ok ([], st, .pending a)
  | fuel + 1, st, a, inp :: script =>
    match a.step with
    | Step.quit => Except.ok ([Step.quit], st, .quitted)
    | Step.connect =>
      match runModel fuel st (actionConnect inp.connectEnv) script with
      | Except.error e => Except.error e
      | Except.ok (tr, st', out) => Except.ok (Step.connect :: tr, st', out)
    | Step.select =>
      match runModel fuel st (actionSelect inp.selectEnv) script with
      | Except.error e => Except.error e
      | Except.ok (tr, st', out) => Except.ok (Step.select :: tr, st', out)
    | Step.filter =>
      match actionFilter st a inp.formChoice with
      | (st', next) =>
        match runModel fuel st' next script with
        | Except.error e => Except.error e
        | Except.ok (tr, st'', out) => Except.ok (Step.filter :: tr, st'', out)
    | Step.search =>
      match actionSearch st a inp.formChoice with
      | (st', next) =>
        match runModel fuel st' next script with
        | Except.error e => Except.error e
        | Except.ok (tr, st'', out) => Except.ok (Step.search :: tr, st'', out)
    | Step.peek =>
      match actionPeek st a inp.now inp.peekEvents with
      | Except.error e => Except.error ("unable to run action: ".data ++ e)
      | Except.ok (.blocked stB) => Except.ok ([Step.peek], stB, .blockedInPeek)
      | Except.ok (.returned st' next) =>
        match runModel fuel st' next script with
        | Except.error e => Except.error e
        | Except.ok (tr, st'', out) => Except.ok (Step.peek :: tr, st'', out)
    | Step.pause =>
      match actionPeek st a inp.now inp.peekEvents with
      | Except.error e => Except.error ("unable to run action: ".data ++ e)
      | Except.ok (.blocked stB) => Except.ok ([Step.pause], stB, .blockedInPeek)
      | Except.ok (.returned st' next) =>
        match runModel fuel st' next script with
        | Except.error e => Except.error e
        | Except.ok (tr, st'', out) => Except.ok (Step.pause :: tr, st'', out)

deriving instance DecidableEq for Except

/-! ## Concrete environments used by the scenario theorems -/

/-- A dispatch input whose connect attempt fails and whose retry modal is
answered with Retry; all other collaborator answers are inert. -/
def failRetryInput : StepInput :=
  { connectEnv :=
      { connectErr := some "dial err".data
        retryChosen := true
        userCancelled := false }
    selectEnv :=
      { fetchErr := none
        retryChosen := false
        userCancelled := false
        outcome := .quitKey }
    formChoice := .cancelPressed
    now := []
    peekEvents := [] }

/-- A dispatch input whose connect attempt succeeds and whose select list
answers with the component `"kafka"`. -/
def connectOkInput : StepInput :=
  { connectEnv :=
      { connectErr := none
        retryChosen := false
        userCancelled := false }
    selectEnv :=
      { fetchErr := none
        retryChosen := false
        userCancelled := false
        outcome := .chose "kafka".data }
    formChoice := .cancelPressed
    now := []
    peekEvents := [] }

/-- A dispatch input whose peek event script delivers a single Pause
keypress. -/
def pauseOnceInput : StepInput :=
  { connectEnv :=
      { connectErr := none
        retryChosen := false
        userCancelled := false }
    selectEnv :=
      { fetchErr := none
        retryChosen := false
        userCancelled := false
        outcome := .quitKey }
    formChoice := .cancelPressed
    now := "12:00:00".data
    peekEvents := [PeekEvent.cmd { step := Step.pause }] }

/-- A dispatch input with an empty peek event script. -/
def noEventsInput : StepInput :=
  { pauseOnceInput with peekEvents := [] }

/-! ## Claims about the handlers and the dispatcher -/

/-- C4 (confirmed): a Filter round-trip started from Peek with current
filter `F` (carried as the action's `PeekFilter`) yields the chosen text
on OK (the original on an untouched OK field), the empty string on Reset,
and `F` on Cancel; in every case the one-shot announce flag is set and the
handler returns a Peek action with the same component and the resulting
filter. -/
theorem C4_filter_roundtrip (st : CmdState) (a : Types.Action) :
    (∀ t, (actionFilter st a (.okPressed (some t))).2.peekFilter = t) ∧
    (actionFilter st a (.okPressed none)).2.peekFilter = a.peekFilter ∧
    (actionFilter st a .resetPressed).2.peekFilter = [] ∧
    (actionFilter st a .cancelPressed).2.peekFilter = a.peekFilter ∧
    (∀ choice,
      (actionFilter st a choice).1.announceFilter = true ∧
      (actionFilter st a choice).2.step = Step.peek ∧
      (actionFilter st a choice).2.peekComponent = a.peekComponent) :=
  ⟨fun _ => rfl, rfl, rfl, rfl, fun _ => ⟨rfl, rfl, rfl⟩⟩

/-- C5 (confirmed): the Peek action returned by the Search handler carries
as `PeekSearchPrev` exactly the search that was active immediately before
the round-trip, i.e. the `PeekSearch` of the action that entered the
handler. -/
theorem C5_search_prev (st : CmdState) (a : Types.Action)
    (choice : FormChoice) :
    (actionSearch st a choice).2.peekSearchPrev = a.peekSearch ∧
    (actionSearch st a choice).2.step = Step.peek :=
  ⟨rfl, rfl⟩

/-- C10 (confirmed): the Peek action returned by the Filter handler
carries empty `PeekSearch` and `PeekSearchPrev` fields no matter what
search was active before, and the Peek action returned by the Search
handler carries an empty `PeekFilter` no matter what filter was active
before — the Go struct literals at cmd.go:134-138 and cmd.go:170-175 omit
the other feature's fields, silently dropping it. -/
theorem C10_cross_feature_reset (st : CmdState) (a : Types.Action)
    (choice : FormChoice) :
    (actionFilter st a choice).2.peekSearch = [] ∧
    (actionFilter st a choice).2.peekSearchPrev = [] ∧
    (actionSearch st a choice).2.peekFilter = [] :=
  ⟨rfl, rfl, rfl⟩

/-- C7 (confirmed): Connect outcomes — success yields Select, success with
a spinner cancel yields Quit, failure with Retry chosen yields Connect,
failure with Quit chosen yields Quit; and in the scenario where Connect
fails twice and then succeeds, the dispatcher's trace visits Connect three
times and then Select exactly once. -/
theorem C7_connect_outcomes :
    (∀ r : Bool, actionConnect ⟨none, r, false⟩ = { step := Step.select }) ∧
    (∀ r : Bool, actionConnect ⟨none, r, true⟩ = { step := Step.quit }) ∧
    (∀ e c, actionConnect ⟨some e, true, c⟩ = { step := Step.connect }) ∧
    (∀ e c, actionConnect ⟨some e, false, c⟩ = { step := Step.quit }) ∧
    runModel 4 {} { step := Step.connect }
        [failRetryInput, failRetryInput, connectOkInput, connectOkInput]
      = Except.ok
          ([Step.connect, Step.connect, Step.connect, Step.select], {},
            RunOutcome.pending
              { step := Step.peek, peekComponent := "kafka".data }) ∧
    [Step.connect, Step.connect, Step.connect,
      Step.select].count Step.connect = 3 ∧
    [Step.connect, Step.connect, Step.connect,
      Step.select].count Step.select = 1 :=
  ⟨fun _ => rfl, fun _ => rfl, fun _ _ => rfl, fun _ _ => rfl,
    by decide, by decide, by decide⟩

/-- C8 (confirmed): a Peek action with an empty component is rejected by
`actionPeek` with an error (no default component is substituted), and the
dispatcher wraps the error in its diagnostic and terminates immediately
instead of retrying. -/
theorem C8_empty_component_fatal (fuel : Nat) (st : CmdState)
    (a : Types.Action) (inp : StepInput) (script : List StepInput)
    (hstep : a.step = Step.peek) (hcomp : a.peekComponent = []) :
    runModel (fuel + 1) st a (inp :: script)
      = Except.error
          "unable to run action: actionPeek(): bug? PeekComponent cannot be empty".data
      := by
  simp only [runModel, hstep, actionPeek, hcomp]
  rfl

/-- Witness for C8 at a concrete empty-component Peek action. -/
theorem C8_empty_component_fatal_witness :
    (({ step := Step.peek } : Types.Action).step = Step.peek ∧
      ({ step := Step.peek } : Types.Action).peekComponent = []) ∧
    runModel 1 {} { step := Step.peek } [noEventsInput]
      = Except.error
          "unable to run action: actionPeek(): bug? PeekComponent cannot be empty".data
      :=
  ⟨⟨rfl, rfl⟩,
    C8_empty_component_fatal 0 {} { step := Step.peek } noEventsInput []
      rfl rfl⟩

/-- C1 counterexample: a Pause command received by the consumer loop does
*exit* the loop and *is* handed back to the dispatcher.  Feeding the loop
exactly one Pause keypress makes `peek` return (rather than keep looping)
with an action whose step is still Pause, and the dispatcher then
dispatches that Pause action — routing it back into `actionPeek`
(cmd.go:87-89) — as the trace `[peek, pause]` shows. -/
theorem C1_counterexample :
    peek { step := Step.peek, peekComponent := "comp".data } "12:00:00".data
        {} [PeekEvent.cmd { step := Step.pause }]
      = Except.ok
          (PeekResult.returned
            { paused := true
              menuPause := true
              text := pauseBanner true "12:00:00".data ++ ['\n'] }
            { step := Step.pause, peekComponent := "comp".data }) ∧
    runModel 2 {} { step := Step.peek, peekComponent := "comp".data }
        [pauseOnceInput, noEventsInput]
      = Except.ok
          ([Step.peek, Step.pause],
            { paused := true
              menuPause := true
              text := pauseBanner true "12:00:00".data ++ ['\n'] },
            RunOutcome.blockedInPeek) := by
  refine ⟨by decide, by decide⟩

/-- C1 (amended): the Pause command's user-interface effects are indeed
all performed inside the consumer loop — the paused flag is toggled, the
Pause menu entry mirrors the new flag, and a PAUSED/RESUMED marker line is
appended to the scrollback — but, like every command, the Pause command
then terminates the current loop invocation and is returned, stamped with
the session settings and with step still Pause, to the dispatcher, which
routes StepPause back into `actionPeek`. -/
theorem C1_amended (act : Types.Action) (now : Str) (st : CmdState)
    (c : Types.Action) (hc : c.step = Step.pause) :
    peekConsume act now st (PeekEvent.cmd c)
      = Sum.inr
          ({ st with
              paused := !st.paused
              menuPause := !st.paused
              text := st.text ++ pauseBanner (!st.paused) now ++ ['\n'] },
            stampAction act c) ∧
    (stampAction act c).step = Step.pause := by
  constructor
  · rw [peekConsume, if_pos hc]
  · simpa [stampAction] using hc

/-- Witness for C1 (amended) at a concrete session state and command. -/
theorem C1_amended_witness :
    (({ step := Step.pause } : Types.Action).step = Step.pause) ∧
    (peekConsume { step := Step.peek, peekComponent := "comp".data }
          "12:00:00".data {} (PeekEvent.cmd { step := Step.pause })
        = Sum.inr
            ({ ({} : CmdState) with
                paused := !({} : CmdState).paused
                menuPause := !({} : CmdState).paused
                text := ({} : CmdState).text ++
                  pauseBanner (!({} : CmdState).paused) "12:00:00".data
                    ++ ['\n'] },
              stampAction { step := Step.peek, peekComponent := "comp".data }
                { step := Step.pause }) ∧
      (stampAction { step := Step.peek, peekComponent := "comp".data }
          { step := Step.pause }).step = Step.pause) :=
  ⟨rfl,
    C1_amended { step := Step.peek, peekComponent := "comp".data }
      "12:00:00".data {} { step := Step.pause } rfl⟩

/-- Modelled from the source structure of `run` (cmd.go:63-99): the
doc comment calls it "a recursive method", and the next action is
dispatched through the literal self-call `return c.run(resp)` at
cmd.go:98.  Go performs no tail-call elimination, so each dispatched
action begins one further nested activation of `run`; `runFrames n` is
the number of live `run` stack frames after `n` dispatches. -/
def runFrames : Nat → Nat
  | 0 => 0
  | n + 1 => runFrames n + 1

theorem runFrames_eq (n : Nat) : runFrames n = n := by
  induction n with
  | zero => rfl
  | succ k ih => rw [runFrames, ih]

/-- Dispatching `n` Connect actions whose attempts all fail with Retry
chosen keeps the dispatcher looping on Connect. -/
theorem runModel_connect_retry (n : Nat) :
    runModel n {} { step := Step.connect } (List.replicate n failRetryInput)
      = Except.ok
          (List.replicate n Step.connect, {},
            RunOutcome.pending { step := Step.connect }) := by
  induction n with
  | zero => rfl
  | succ k ih =>
    rw [List.replicate_succ]
    simp only [runModel]
    have hca : actionConnect failRetryInput.connectEnv
        = { step := Step.connect } := rfl
    rw [hca, ih]
    simp [List.replicate_succ]

/-- C9 counterexample: the dispatcher is *not* an iterative loop with a
constant-size stack — it recurses (cmd.go:98), so after the three
dispatches of a fail-retry-twice session three nested `run` activations
are live, strictly more than after a single dispatch. -/
theorem C9_counterexample :
    runModel 3 {} { step := Step.connect }
        [failRetryInput, failRetryInput, failRetryInput]
      = Except.ok
          ([Step.connect, Step.connect, Step.connect], {},
            RunOutcome.pending { step := Step.connect }) ∧
    runFrames [Step.connect, Step.connect, Step.connect].length
      > runFrames [Step.connect].length := by
  refine ⟨by decide, by decide⟩

/-- C9 (amended): `run` is literal call-stack recursion, not an iterative
loop: every dispatched action adds one nested `run` activation, so for
every `n` there is a session (n failed connects, Retry each time) whose
trace dispatches `n` actions with `n` live frames — the stack grows
linearly and without bound in the number of dispatched actions. -/
theorem C9_amended (n : Nat) :
    ∃ tr : List Step, ∃ st : CmdState, ∃ out : RunOutcome,
      runModel n {} { step := Step.connect } (List.replicate n failRetryInput)
        = Except.ok (tr, st, out) ∧
      tr.length = n ∧ runFrames tr.length = n :=
  ⟨List.replicate n Step.connect, {},
    RunOutcome.pending { step := Step.connect },
    runModel_connect_retry n, by simp,
    by rw [runFrames_eq, List.length_replicate]⟩
